import Mathlib

/-!
Verification of the LLaVA pretraining data module
(`llava/llava_pretrain_data.py`): a shallow embedding of its string
processing, conversation preprocessing, dataset construction, image
padding and batch collation, together with proofs of the specified
properties.

Python strings are modelled as `List Char`; Python lists as Lean lists;
fallible code returns `Except String` with the Python exception class name
as the error payload.
-/

namespace LlavaPretrainData

/-- Whitespace test used by Python's `str.strip` (ASCII whitespace). -/
def pyIsSpace (c : Char) : Bool :=
  c = ' ' || c = '\t' || c = '\n' || c = '\r' || c = '\x0b' || c = '\x0c'

/-- Python `s.startswith(pat)` / substring match at the start of a string. -/
def startsWith : List Char → List Char → Bool
  | [], _ => true
  | _ :: _, [] => false
  | p :: ps, c :: cs => p == c && startsWith ps cs

/-- Python membership test `pat in s` over strings. -/
def pyContains (pat : List Char) : List Char → Bool
  | [] => pat.isEmpty
  | c :: rest => startsWith pat (c :: rest) || pyContains pat rest

/-- The module constant DEFAULT_IMAGE_TOKEN = "<image>". -/
def DEFAULT_IMAGE_TOKEN : List Char := ['<', 'i', 'm', 'a', 'g', 'e', '>']

/-- The module constant IGNORE_INDEX = -100. -/
def IGNORE_INDEX : Int := -100

/-- Fuel-indexed worker for `removeImageTok`; the fuel only serves to make
the recursion structural, and is always at least the input length. -/
def removeImageTokFuel : Nat → List Char → List Char
  | 0, s => s
  | _ + 1, [] => []
  | fuel + 1, c :: rest =>
    if startsWith DEFAULT_IMAGE_TOKEN (c :: rest) then
      removeImageTokFuel fuel (rest.drop 6)
    else
      c :: removeImageTokFuel fuel rest

/-- Python `s.replace(DEFAULT_IMAGE_TOKEN, "")`: a single left-to-right
pass deleting each occurrence of the 7-character marker; the output is not
rescanned. -/
def removeImageTok (s : List Char) : List Char := removeImageTokFuel s.length s

/-- Python `DEFAULT_IMAGE_TOKEN in v`. -/
def hasImageTok (s : List Char) : Bool := pyContains DEFAULT_IMAGE_TOKEN s

/-- Python `s.rstrip()`: remove trailing whitespace. -/
def dropTrailingSpace : List Char → List Char
  | [] => []
  | c :: rest =>
    let r := dropTrailingSpace rest
    if r.isEmpty && pyIsSpace c then [] else c :: r

/-- Python `s.strip()`: remove leading and trailing whitespace. -/
def stripL (s : List Char) : List Char := dropTrailingSpace (s.dropWhile pyIsSpace)

/-- Boolean test that a string has no leading whitespace. -/
def noLeadSpace : List Char → Bool
  | [] => true
  | c :: _ => !pyIsSpace c

/-- Boolean test that a string has no trailing whitespace. -/
def noTrailSpace (s : List Char) : Bool :=
  s.getLast?.all (fun c => !pyIsSpace c)

/-- One conversation turn; the code reads and writes only its `value`
string, so other record keys are not modelled. -/
structure Sentence where
  value : List Char
deriving DecidableEq, Inhabited

/-- The per-sentence body of `preprocess_multimodal` (lines 20-27): if the
value contains the image marker it is removed and the value stripped, the
marker and a newline are prepended, the value stripped, the marker removed
again, and the value stripped a final time; otherwise the value is left
unchanged. -/
def processSentence (v : List Char) : List Char :=
  if hasImageTok v then
    let v1 := stripL (removeImageTok v)
    let v2 := DEFAULT_IMAGE_TOKEN ++ '\n' :: v1
    let v3 := stripL v2
    let v4 := removeImageTok v3
    stripL v4
  else v

/-- The tokenizer contract consumed by the module: a callable mapping a
string to a token id sequence, plus `pad_token_id`, `eos_token_id` and
`model_max_length`. Token ids are natural numbers (vocabulary indices). -/
structure Tokenizer where
  tok : List Char → List Nat
  eos_token_id : Nat
  pad_token_id : Nat
  model_max_length : Nat

/-- Application of `preprocess_multimodal` to one source (one conversation
turn list): every sentence value is rewritten in place. -/
def preprocess_multimodal_conv (conv : List Sentence) : List Sentence :=
  conv.map (fun s => ⟨processSentence s.value⟩)

/-- The function `preprocess_multimodal(sources)`: rewrites each sentence
of each source and returns the sources. -/
def preprocess_multimodal (sources : List (List Sentence)) : List (List Sentence) :=
  sources.map preprocess_multimodal_conv

/-- Python for-loop over a list with exception propagation: the first
raised exception aborts the whole computation. -/
def mapE {α β : Type} (f : α → Except String β) : List α → Except String (List β)
  | [] => .ok []
  | a :: l =>
    match f a with
    | .error e => .error e
    | .ok b =>
      match mapE f l with
      | .error e => .error e
      | .ok bs => .ok (b :: bs)

/-- The statement `source[0]['value'] = ""` of `preprocess_plain`
(line 38): blank the first turn of a conversation in place. -/
def blankFirst : List Sentence → List Sentence
  | [] => []
  | _ :: rest => ⟨[]⟩ :: rest

/-- Reads `source[0]['value']` (total, as the code only does this on
non-empty sources). -/
def firstValue (source : List Sentence) : List Char :=
  (source.headD ⟨[]⟩).value

/-- The body of the first loop of `preprocess_plain` (lines 35-41), for one
source: assert the conversation has exactly two turns (an `AssertionError`
aborts the item otherwise), blank the first turn, and build the
concatenation `source[0]['value'] + source[1]['value'] + sep`. -/
def sourceStep (sep : List Char) (source : List Sentence) :
    Except String (List Sentence × List Char) :=
  if source.length = 2 then
    let blanked := blankFirst source
    .ok (blanked, firstValue blanked ++ (blanked.getD 1 ⟨[]⟩).value ++ sep)
  else .error "AssertionError"

/-- The body of the masking loop of `preprocess_plain` (lines 48-52), for
one (target, mutated source) pair: `tokenized_len` is the tokenized length
of the blanked first turn; when it is positive the statement
`target[:tokenized_len] = IGNORE_INDEX` assigns the integer IGNORE_INDEX
to a list slice, which raises `TypeError: can only assign an iterable`
(the targets are Python lists here, not tensors); when it is zero the
guarded assignment is skipped and the target is unchanged. -/
def maskTarget (tk : Tokenizer) (target : List Int) (source : List Sentence) :
    Except String (List Int) :=
  if 0 < (tk.tok (firstValue source)).length then .error "TypeError"
  else .ok target

/-- The masked prefix length computed by `preprocess_plain` for a source:
the tokenized length of the first turn after it has been blanked
(`len(tokenizer(source[0]['value'])["input_ids"])` with
`source[0]['value'] = ""` already executed). -/
def maskedPrefixLen (tk : Tokenizer) (source : List Sentence) : Nat :=
  (tk.tok (firstValue (blankFirst source))).length

/-- Test that a list of rows is rectangular, as `torch.tensor` requires of
a nested Python list (a ragged nesting raises `ValueError`). -/
def rectangular {α : Type} (rows : List (List α)) : Bool :=
  match rows with
  | [] => true
  | r :: rest => rest.all (fun row => row.length == r.length)

/-- Result of `preprocess_plain`: the tokenized conversations and their
label copies, as rectangular integer arrays. -/
structure PPOut where
  input_ids : List (List Nat)
  labels : List (List Int)
deriving DecidableEq

/-- The function `preprocess_plain(sources, tokenizer)` (lines 32-54).
`sep` is the separator string of the module-level default conversation
template (`conversation_lib.default_conversation.sep`, set from the
"plain" template; the conversation library is outside this module, so the
separator is a parameter here). For each source: assert two turns, blank
the first turn, concatenate with the separator; then tokenize each
concatenation and append `eos_token_id`; copy the ids as labels; then run
the masking loop; finally build the two tensors (raising `ValueError` if a
nested list is ragged). -/
def preprocess_plain (sep : List Char) (tk : Tokenizer)
    (sources : List (List Sentence)) : Except String PPOut :=
  match mapE (sourceStep sep) sources with
  | .error e => .error e
  | .ok pairs =>
    let blanked := pairs.map (fun p => p.1)
    let conversations := pairs.map (fun p => p.2)
    let input_ids := conversations.map (fun c => tk.tok c ++ [tk.eos_token_id])
    let targets := input_ids.map (fun ids => ids.map (fun n => Int.ofNat n))
    match mapE (fun p => maskTarget tk p.1 p.2) (targets.zip blanked) with
    | .error e => .error e
    | .ok labels =>
      if rectangular input_ids then
        if rectangular labels then .ok { input_ids := input_ids, labels := labels }
        else .error "ValueError"
      else .error "ValueError"

/-- A dense tensor, modelled by its shape and flattened integer data. -/
structure Tensor where
  shape : List Nat
  data : List Int
deriving DecidableEq

/-- One tokenized example as consumed by `collate_fn`: `input_ids` and
`labels` rows, and the optional `image` entry. -/
structure Instance where
  input_ids : List Int
  labels : List Int
  image : Option Tensor
deriving DecidableEq

instance : Inhabited Instance := ⟨⟨[], [], none⟩⟩

/-- The `images` entry of a collated batch: a single stacked tensor when
all image tensors share a shape, the raw list otherwise, or absent when
the first instance carries no image. -/
inductive BatchImages where
  | absent
  | stacked (t : Tensor)
  | unstacked (l : List (Option Tensor))
deriving DecidableEq

/-- The batch dictionary returned by `collate_fn`. -/
structure Batch where
  input_ids : List (List Int)
  labels : List (List Int)
  attention_mask : List (List Bool)
  images : BatchImages
deriving DecidableEq

/-- Maximum row length of a list of rows (0 for an empty list). -/
def maxLen (vs : List (List Int)) : Nat :=
  vs.foldr (fun v m => max v.length m) 0

/-- Right-pad one row to the given length with the given value. -/
def padTo (len : Nat) (pad : Int) (v : List Int) : List Int :=
  v ++ List.replicate (len - v.length) pad

/-- `torch.nn.utils.rnn.pad_sequence(vs, batch_first=True, padding_value=pad)`:
right-pad every row to the batch maximum length. -/
def pad_sequence (vs : List (List Int)) (pad : Int) : List (List Int) :=
  vs.map (padTo (maxLen vs) pad)

/-- The trailing dimension `t.shape[-1]` of a batch-first (N, L) tensor
given as a list of equal-length rows. -/
def rowLen (vs : List (List Int)) : Nat :=
  (vs.headD []).length

/-- Shape of an optional tensor; the `none` case is never reached where
this junk value could matter (Python short-circuits on `x is not None`
before evaluating `images[0].shape`, and `all` stops at the first false). -/
def shapeOfOpt : Option Tensor → List Nat
  | some t => t.shape
  | none => []

/-- The Python test
`all(x is not None and x.shape == images[0].shape for x in images)`. -/
def stackCond (images : List (Option Tensor)) : Bool :=
  images.all (fun x => x.isSome && (shapeOfOpt x == shapeOfOpt (images.headD none)))

/-- `torch.stack` on a list of same-shape tensors: prepend the list length
to the common shape and concatenate the data. -/
def stackTensors (ts : List Tensor) : Tensor :=
  { shape := ts.length :: (ts.headD ⟨[], []⟩).shape,
    data := (ts.map (fun t => t.data)).flatten }

/-- The image block of `collate_fn` (lines 184-189): when the first
instance has an `image` entry, stack all images if they are all present
with one common shape, else pass the raw list through. -/
def imagesPart (instances : List Instance) : BatchImages :=
  match (instances.headD default).image with
  | some _ =>
    let images := instances.map (fun inst => inst.image)
    if stackCond images then .stacked (stackTensors (images.filterMap id))
    else .unstacked images
  | none => .absent

/-- The tail of `collate_fn` (lines 171-189): truncate both arrays to
`min(max_length, tokenizer.model_max_length)`, derive the attention mask,
and attach the images entry. -/
def finishBatch (tk : Tokenizer) (max_length : Nat) (instances : List Instance)
    (input_ids labels : List (List Int)) : Batch :=
  let min_max_len := min max_length tk.model_max_length
  let input_ids := input_ids.map (fun row => row.take min_max_len)
  let labels := labels.map (fun row => row.take min_max_len)
  { input_ids := input_ids,
    labels := labels,
    attention_mask := input_ids.map (fun row =>
      row.map (fun x => x != (Int.ofNat tk.pad_token_id))),
    images := imagesPart instances }

/-- The function `collate_fn(instances, tokenizer, max_length)`
(lines 150-191). An empty instance list makes `pad_sequence` raise
`RuntimeError`. After padding to the batch maximum, if the padded
`input_ids` are still shorter than `max_length`, both arrays are extended
to `max_length` with a padding tube; `torch.ones` raises `RuntimeError`
when the labels tube would have a negative width. -/
def collate_fn (instances : List Instance) (tk : Tokenizer) (max_length : Nat) :
    Except String Batch :=
  if instances.isEmpty then .error "RuntimeError" else
  let inputs0 := instances.map (fun inst => inst.input_ids)
  let labels0 := instances.map (fun inst => inst.labels)
  let input_ids1 := pad_sequence inputs0 (Int.ofNat tk.pad_token_id)
  let labels1 := pad_sequence labels0 IGNORE_INDEX
  if rowLen input_ids1 < max_length then
    let input_ids2 := input_ids1.map (fun row =>
      row ++ List.replicate (max_length - rowLen input_ids1) (Int.ofNat tk.pad_token_id))
    if max_length < rowLen labels1 then .error "RuntimeError"
    else
      let labels2 := labels1.map (fun row =>
        row ++ List.replicate (max_length - rowLen labels1) IGNORE_INDEX)
      .ok (finishBatch tk max_length instances input_ids2 labels2)
  else .ok (finishBatch tk max_length instances input_ids1 labels1)

/-- The maximum raw `input_ids` length across a batch of instances. -/
def maxRawLen (instances : List Instance) : Nat :=
  maxLen (instances.map (fun inst => inst.input_ids))

/-- Counterexample batch for claim C1: one instance of raw length 3. -/
def cInstances : List Instance := [⟨[1, 2, 3], [1, 2, 3], none⟩]

/-- Counterexample tokenizer for claim C1: pad id 0, model_max_length 10. -/
def cTokC : Tokenizer :=
  { tok := fun _ => [], eos_token_id := 1, pad_token_id := 0,
    model_max_length := 10 }

/-- Witness batch for the collate theorems: one instance with equal-length
rows and an image tensor of shape (1, 1, 1). -/
def wInstances : List Instance := [⟨[5, 6], [7, 8], some ⟨[1, 1, 1], [9]⟩⟩]

/-- Witness tokenizer for the collate theorems. -/
def wTokC : Tokenizer :=
  { tok := fun _ => [], eos_token_id := 1, pad_token_id := 0,
    model_max_length := 10 }

/-- One record of the input JSON file: an optional `image` path and a
`conversations` turn list (other keys are not consumed by the module). -/
structure RawRecord where
  image : Option (List Char)
  conversations : List Sentence
deriving DecidableEq

/-- The record-filtering loop of `LLaVAPretrainCaptioningDataset.__init__`
(lines 96-99): `self.list_data_dict` keeps exactly the records whose key
set contains `image`. -/
def buildListDataDict (data : List RawRecord) : List RawRecord :=
  data.filter (fun item => item.image.isSome)

/-- An RGB color triple (0-255 channel values). -/
abbrev Color := Nat × Nat × Nat

/-- A PIL-style image: a width, a height, and the pixel at each
coordinate. -/
structure PImage where
  width : Nat
  height : Nat
  pix : Nat → Nat → Color

/-- `PIL.Image.new(mode, (w, h), background_color)`: a constant image. -/
def imageNew (w h : Nat) (c : Color) : PImage :=
  { width := w, height := h, pix := fun _ _ => c }

/-- `base.paste(img, (x0, y0))`: overwrite the rectangle of `base` at
offset (x0, y0) with `img` (always fully in bounds where used). -/
def paste (base img : PImage) (x0 y0 : Nat) : PImage :=
  { base with
    pix := fun x y =>
      if x0 ≤ x ∧ x < x0 + img.width ∧ y0 ≤ y ∧ y < y0 + img.height then
        img.pix (x - x0) (y - y0)
      else base.pix x y }

/-- The function `expand2square(pil_img, background_color)` (lines 61-76):
return the image unchanged when square, otherwise paste it onto a square
background of side the larger dimension, offset by half the difference
along the shorter dimension. -/
def expand2square (pil_img : PImage) (background_color : Color) : PImage :=
  if pil_img.width = pil_img.height then pil_img
  else if pil_img.height < pil_img.width then
    paste (imageNew pil_img.width pil_img.width background_color) pil_img
      0 ((pil_img.width - pil_img.height) / 2)
  else
    paste (imageNew pil_img.height pil_img.height background_color) pil_img
      ((pil_img.height - pil_img.width) / 2) 0

/-- The side of the square canvas produced by `expand2square`: the larger
image dimension. -/
def squareSide (img : PImage) : Nat := max img.width img.height

/-- Horizontal paste offset of `expand2square`: half the horizontal
padding (0 when the width is the larger dimension). -/
def padOffX (img : PImage) : Nat := (squareSide img - img.width) / 2

/-- Vertical paste offset of `expand2square`: half the vertical padding
(0 when the height is the larger dimension). -/
def padOffY (img : PImage) : Nat := (squareSide img - img.height) / 2

/-- A heap of mutable conversation cells; an address is an index into
`cells`. Each cell holds one record's `conversations` list, the only
stored state the per-item pipeline mutates. -/
structure Heap where
  cells : List (List Sentence)
deriving DecidableEq

/-- Read the cell at an address (junk default for dangling addresses,
which never arise where this is used). -/
def Heap.read (h : Heap) (a : Nat) : List Sentence :=
  h.cells.getD a []

/-- Allocate a fresh cell holding `v`; returns the new heap and the fresh
address. Models `copy.deepcopy` creating a new object. -/
def Heap.alloc (h : Heap) (v : List Sentence) : Heap × Nat :=
  (⟨h.cells ++ [v]⟩, h.cells.length)

/-- Overwrite the cell at an address (in-place mutation). -/
def Heap.write (h : Heap) (a : Nat) (v : List Sentence) : Heap :=
  ⟨h.cells.set a v⟩

/-- A stored dataset record: the optional `image` path, and the heap
address of its `conversations` list. -/
structure RecordRef where
  image : Option (List Char)
  convAddr : Nat
deriving DecidableEq

/-- The per-item dictionary built by `__getitem__`. -/
structure Item where
  input_ids : List Nat
  labels : List Int
  image : Tensor

/-- `LLaVAPretrainCaptioningDataset.__getitem__(i)` (lines 109-147) over
the heap model. `openImage` stands for `PIL.Image.open(...).convert('RGB')`
(a file read), and `resizeProc` for the bicubic resize plus the CLIP
processor call, both external to the module. The record's conversations
are deep-copied into a fresh cell; `preprocess_multimodal` and the
`preprocess_plain` steps read and mutate only that fresh cell. -/
def getitem (sep : List Char) (tk : Tokenizer) (openImage : List Char → PImage)
    (resizeProc : PImage → Tensor) (pad2square : Bool) (background_color : Color)
    (h : Heap) (ds : List RecordRef) (i : Nat) : Heap × Except String Item :=
  match ds.get? i with
  | none => (h, .error "IndexError")
  | some r =>
    match r.image with
    | none => (h, .error "AssertionError")
    | some imageFile =>
      let pimg0 := openImage imageFile
      let pimg := if pad2square then expand2square pimg0 background_color else pimg0
      let img := resizeProc pimg
      let copied := h.read r.convAddr
      let alloced := h.alloc copied
      let h1 := alloced.1
      let a1 := alloced.2
      let h2 := h1.write a1 (preprocess_multimodal_conv (h1.read a1))
      match sourceStep sep (h2.read a1) with
      | .error e => (h2, .error e)
      | .ok pair =>
        let h3 := h2.write a1 pair.1
        let ids := tk.tok pair.2 ++ [tk.eos_token_id]
        let target := ids.map (fun n => Int.ofNat n)
        match maskTarget tk target (h3.read a1) with
        | .error e => (h3, .error e)
        | .ok labels => (h3, .ok { input_ids := ids, labels := labels, image := img })

/-- Witness tokenizer for the preprocessing theorems: maps a string to its
character codes and adds no special tokens. -/
def wTok : Tokenizer :=
  { tok := fun s => s.map Char.toNat, eos_token_id := 999,
    pad_token_id := 0, model_max_length := 512 }

/-- Witness conversation with exactly two turns. -/
def wConv : List Sentence := [⟨['h', 'i']⟩, ⟨['y', 'o']⟩]

/-- Witness output of `preprocess_plain` on `wConv`. -/
def wOut : PPOut :=
  { input_ids := [[121, 111, 10, 999]], labels := [[121, 111, 10, 999]] }

/-- Counterexample tokenizer for claim C2: satisfies the stated tokenizer
contract, but maps every string (the empty string included) to a
one-element id sequence. -/
def cTok : Tokenizer :=
  { tok := fun _ => [7], eos_token_id := 2, pad_token_id := 0,
    model_max_length := 512 }

/-- Counterexample conversation for claim C2. -/
def cConv : List Sentence := [⟨['a']⟩, ⟨['b']⟩]

/-- Witness record list for the dataset-filter theorem: two records with
an image path and one without. -/
def wData : List RawRecord :=
  [⟨some ['a'], []⟩, ⟨none, []⟩, ⟨some ['b'], []⟩]

/-- The sentence value used in the counterexample to claim C6: a nesting
of the image marker for which two single-pass removals still leave a
marker occurrence. -/
def nastyValue : List Char :=
  ['<', 'i', 'm', '<', 'i', 'm', '<', 'i', 'm', 'a', 'g', 'e', '>', 'a',
   'g', 'e', '>', 'a', 'g', 'e', '>']

/-- The sentence value used in the witness for the amended claim C6: the
usual image-instruction form. -/
def dValue : List Char :=
  ['<', 'i', 'm', 'a', 'g', 'e', '>', '\n', 'd', 'e', 's', 'c', 'r', 'i',
   'b', 'e']

section GetDLemmas

variable {α β : Type}

theorem getD_nil (i : Nat) (d : α) : ([] : List α).getD i d = d := by
  cases i <;> rfl

theorem getD_cons_zero (a : α) (l : List α) (d : α) : (a :: l).getD 0 d = a := rfl

theorem getD_cons_succ (a : α) (l : List α) (i : Nat) (d : α) :
    (a :: l).getD (i + 1) d = l.getD i d := rfl

theorem getD_of_le_length {l : List α} {i : Nat} (h : l.length ≤ i) (d : α) :
    l.getD i d = d := by
  induction l generalizing i with
  | nil => exact getD_nil i d
  | cons a t ih =>
    cases i with
    | zero => simp at h
    | succ i =>
      rw [getD_cons_succ]
      exact ih (by simpa using h)

theorem getD_map_lt (f : α → β) {l : List α} {i : Nat} (h : i < l.length)
    (d : β) (d' : α) : (l.map f).getD i d = f (l.getD i d') := by
  induction l generalizing i with
  | nil => simp at h
  | cons a t ih =>
    cases i with
    | zero => rfl
    | succ i =>
      rw [List.map_cons, getD_cons_succ, getD_cons_succ]
      exact ih (by simpa using h)

theorem getD_append_lt {l : List α} (t : List α) {i : Nat} (h : i < l.length)
    (d : α) : (l ++ t).getD i d = l.getD i d := by
  induction l generalizing i with
  | nil => simp at h
  | cons a u ih =>
    cases i with
    | zero => rfl
    | succ i =>
      rw [List.cons_append, getD_cons_succ, getD_cons_succ]
      exact ih (by simpa using h)

theorem getD_append_ge {l : List α} (t : List α) {i : Nat} (h : l.length ≤ i)
    (d : α) : (l ++ t).getD i d = t.getD (i - l.length) d := by
  induction l generalizing i with
  | nil => simp
  | cons a u ih =>
    cases i with
    | zero => simp at h
    | succ i =>
      rw [List.cons_append, getD_cons_succ, ih (by simpa using h)]
      simp [Nat.succ_sub_succ]

theorem getD_replicate_lt {i n : Nat} (h : i < n) (a d : α) :
    (List.replicate n a).getD i d = a := by
  induction n generalizing i with
  | zero => omega
  | succ n ih =>
    rw [List.replicate_succ]
    cases i with
    | zero => rfl
    | succ i =>
      rw [getD_cons_succ]
      exact ih (by omega)

theorem getD_take_lt {l : List α} {i n : Nat} (h : i < n) (d : α) :
    (l.take n).getD i d = l.getD i d := by
  induction l generalizing i n with
  | nil => simp
  | cons a t ih =>
    cases n with
    | zero => omega
    | succ n =>
      rw [List.take_succ_cons]
      cases i with
      | zero => rfl
      | succ i =>
        rw [getD_cons_succ, getD_cons_succ]
        exact ih (by omega)

theorem getD_set_ne {l : List α} {i j : Nat} (h : i ≠ j) (v d : α) :
    (l.set i v).getD j d = l.getD j d := by
  induction l generalizing i j with
  | nil => simp
  | cons a t ih =>
    cases i with
    | zero =>
      cases j with
      | zero => omega
      | succ j => rfl
    | succ i =>
      cases j with
      | zero => rfl
      | succ j =>
        rw [List.set_cons_succ, getD_cons_succ, getD_cons_succ]
        exact ih (by omega)

theorem getD_mem_of_lt {l : List α} {i : Nat} (h : i < l.length) (d : α) :
    l.getD i d ∈ l := by
  induction l generalizing i with
  | nil => simp at h
  | cons a t ih =>
    cases i with
    | zero => exact List.mem_cons_self a t
    | succ i =>
      rw [getD_cons_succ]
      exact List.mem_cons_of_mem a (ih (by simpa using h))

end GetDLemmas

section StringLemmas

theorem removeImageTokFuel_congr (f1 : Nat) : ∀ (f2 : Nat) (s : List Char),
    s.length ≤ f1 → s.length ≤ f2 → removeImageTokFuel f1 s = removeImageTokFuel f2 s := by
  induction f1 with
  | zero =>
    intro f2 s h1 _
    have hs : s = [] := List.length_eq_zero.mp (Nat.le_zero.mp h1)
    subst hs
    cases f2 <;> rfl
  | succ f1 ih =>
    intro f2 s h1 h2
    cases s with
    | nil => cases f2 <;> rfl
    | cons c rest =>
      simp only [List.length_cons] at h1 h2
      cases f2 with
      | zero => omega
      | succ f2 =>
        simp only [removeImageTokFuel]
        by_cases hst : startsWith DEFAULT_IMAGE_TOKEN (c :: rest) = true
        · rw [if_pos hst, if_pos hst]
          have hd : (rest.drop 6).length ≤ rest.length := by
            simp only [List.length_drop]; omega
          exact ih f2 (rest.drop 6) (by omega) (by omega)
        · rw [if_neg hst, if_neg hst]
          exact congrArg (c :: ·) (ih f2 rest (by omega) (by omega))

theorem removeImageTok_nil : removeImageTok [] = [] := rfl

theorem removeImageTok_cons (c : Char) (rest : List Char) :
    removeImageTok (c :: rest) =
      if startsWith DEFAULT_IMAGE_TOKEN (c :: rest) then
        removeImageTok (rest.drop 6)
      else
        c :: removeImageTok rest := by
  show removeImageTokFuel (rest.length + 1) (c :: rest) = _
  simp only [removeImageTokFuel]
  by_cases hst : startsWith DEFAULT_IMAGE_TOKEN (c :: rest) = true
  · rw [if_pos hst, if_pos hst]
    exact removeImageTokFuel_congr _ _ _
      (by simp only [List.length_drop]; omega) le_rfl
  · rw [if_neg hst, if_neg hst]
    exact congrArg (c :: ·) (removeImageTokFuel_congr _ _ _ (by omega) le_rfl)

theorem startsWith_self_append (p s : List Char) : startsWith p (p ++ s) = true := by
  induction p with
  | nil => rfl
  | cons c cs ih => simp [startsWith, ih]

theorem startsWith_append_of (p x t : List Char) (h : startsWith p x = true) :
    startsWith p (x ++ t) = true := by
  induction p generalizing x with
  | nil => rfl
  | cons c cs ih =>
    cases x with
    | nil => simp [startsWith] at h
    | cons a as =>
      simp only [startsWith, Bool.and_eq_true, beq_iff_eq] at h ⊢
      exact ⟨h.1, ih as h.2⟩

theorem pyContains_append_of (pat x t : List Char) (h : pyContains pat x = true) :
    pyContains pat (x ++ t) = true := by
  induction x with
  | nil =>
    cases pat with
    | nil => cases t with
      | nil => rfl
      | cons c cs => simp [pyContains, startsWith]
    | cons p ps => simp [pyContains, List.isEmpty] at h
  | cons a as ih =>
    simp only [pyContains, Bool.or_eq_true] at h
    rcases h with h | h
    · simp only [List.cons_append, pyContains, Bool.or_eq_true]
      exact Or.inl (startsWith_append_of _ _ _ h)
    · simp only [List.cons_append, pyContains, Bool.or_eq_true]
      exact Or.inr (ih h)

theorem hasImageTok_of_dropWhile (s : List Char)
    (h : hasImageTok (s.dropWhile pyIsSpace) = true) : hasImageTok s = true := by
  induction s with
  | nil => simpa using h
  | cons c cs ih =>
    by_cases hc : pyIsSpace c = true
    · rw [List.dropWhile_cons, if_pos hc] at h
      simp only [hasImageTok, pyContains, Bool.or_eq_true]
      exact Or.inr (ih h)
    · rwa [List.dropWhile_cons, if_neg hc] at h

theorem dropTrailingSpace_eq_append (s : List Char) :
    ∃ t, s = dropTrailingSpace s ++ t := by
  induction s with
  | nil => exact ⟨[], rfl⟩
  | cons c cs ih =>
    obtain ⟨t, ht⟩ := ih
    by_cases h : (dropTrailingSpace cs).isEmpty && pyIsSpace c
    · exact ⟨c :: cs, by simp [dropTrailingSpace, h]⟩
    · refine ⟨t, ?_⟩
      simp only [dropTrailingSpace, if_neg h, List.cons_append]
      exact congrArg (c :: ·) ht

theorem hasImageTok_of_dropTrailing (s : List Char)
    (h : hasImageTok (dropTrailingSpace s) = true) : hasImageTok s = true := by
  obtain ⟨t, ht⟩ := dropTrailingSpace_eq_append s
  rw [ht]
  exact pyContains_append_of _ _ _ h

theorem hasImageTok_of_stripL (s : List Char)
    (h : hasImageTok (stripL s) = true) : hasImageTok s = true :=
  hasImageTok_of_dropWhile s (hasImageTok_of_dropTrailing _ h)

theorem removeImageTok_of_not_has (s : List Char) (h : hasImageTok s = false) :
    removeImageTok s = s := by
  induction s with
  | nil => rfl
  | cons c cs ih =>
    simp only [hasImageTok, pyContains, Bool.or_eq_false_iff] at h
    rw [removeImageTok_cons, if_neg (by simp [h.1])]
    exact congrArg (c :: ·) (ih h.2)

theorem removeImageTok_tok_append (t : List Char) :
    removeImageTok (DEFAULT_IMAGE_TOKEN ++ t) = removeImageTok t := by
  have h1 : DEFAULT_IMAGE_TOKEN ++ t = '<' :: (['i', 'm', 'a', 'g', 'e', '>'] ++ t) := rfl
  rw [h1, removeImageTok_cons, if_pos]
  · simp [List.drop]
  · rw [← h1]
    exact startsWith_self_append DEFAULT_IMAGE_TOKEN t

theorem removeImageTok_cons_of_not_starts (c : Char) (s : List Char)
    (h : startsWith DEFAULT_IMAGE_TOKEN (c :: s) = false) :
    removeImageTok (c :: s) = c :: removeImageTok s := by
  rw [removeImageTok_cons, if_neg (by simp [h])]

theorem noLeadSpace_dropWhile (s : List Char) :
    noLeadSpace (s.dropWhile pyIsSpace) = true := by
  induction s with
  | nil => rfl
  | cons c cs ih =>
    by_cases hc : pyIsSpace c = true
    · rwa [List.dropWhile_cons, if_pos hc]
    · rw [List.dropWhile_cons, if_neg hc]
      simp [noLeadSpace, hc]

theorem noLeadSpace_dropTrailing (s : List Char) (h : noLeadSpace s = true) :
    noLeadSpace (dropTrailingSpace s) = true := by
  cases s with
  | nil => rfl
  | cons c cs =>
    by_cases hc : (dropTrailingSpace cs).isEmpty && pyIsSpace c
    · simp [dropTrailingSpace, hc, noLeadSpace]
    · simp only [dropTrailingSpace, if_neg hc]
      simpa [noLeadSpace] using h

theorem noLeadSpace_stripL (s : List Char) : noLeadSpace (stripL s) = true :=
  noLeadSpace_dropTrailing _ (noLeadSpace_dropWhile s)

theorem noTrailSpace_single (c : Char) : noTrailSpace [c] = !pyIsSpace c := by
  simp [noTrailSpace]

theorem noTrailSpace_cons_cons (a b : Char) (l : List Char) :
    noTrailSpace (a :: b :: l) = noTrailSpace (b :: l) := by
  simp only [noTrailSpace, List.getLast?_cons_cons]

theorem noTrailSpace_append_right (x y : List Char) (hy : y ≠ []) :
    noTrailSpace (x ++ y) = noTrailSpace y := by
  simp only [noTrailSpace, List.getLast?_append_of_ne_nil x hy]

theorem noTrailSpace_dropTrailing (s : List Char) :
    noTrailSpace (dropTrailingSpace s) = true := by
  induction s with
  | nil => rfl
  | cons c cs ih =>
    by_cases hc : (dropTrailingSpace cs).isEmpty && pyIsSpace c
    · simp [dropTrailingSpace, hc, noTrailSpace]
    · simp only [dropTrailingSpace, if_neg hc]
      cases hr : dropTrailingSpace cs with
      | nil =>
        simp only [hr, List.isEmpty_nil, Bool.true_and] at hc
        rw [noTrailSpace_single]
        simp [hc]
      | cons r rs =>
        rw [hr] at ih
        rwa [noTrailSpace_cons_cons]

theorem noTrailSpace_stripL (s : List Char) : noTrailSpace (stripL s) = true :=
  noTrailSpace_dropTrailing _

theorem dropWhile_eq_self_of_noLead (s : List Char) (h : noLeadSpace s = true) :
    s.dropWhile pyIsSpace = s := by
  cases s with
  | nil => rfl
  | cons c cs =>
    simp only [noLeadSpace, Bool.not_eq_true'] at h
    rw [List.dropWhile_cons, if_neg (by simp [h])]

theorem dropTrailing_eq_self_of_noTrail (s : List Char) (h : noTrailSpace s = true) :
    dropTrailingSpace s = s := by
  induction s with
  | nil => rfl
  | cons c cs ih =>
    cases cs with
    | nil =>
      rw [noTrailSpace_single, Bool.not_eq_true'] at h
      simp [dropTrailingSpace, h]
    | cons d ds =>
      rw [noTrailSpace_cons_cons] at h
      have hih := ih h
      rw [dropTrailingSpace, hih]
      simp

theorem stripL_eq_self (s : List Char) (h1 : noLeadSpace s = true)
    (h2 : noTrailSpace s = true) : stripL s = s := by
  rw [stripL, dropWhile_eq_self_of_noLead s h1, dropTrailing_eq_self_of_noTrail s h2]

theorem stripL_cons_space (c : Char) (s : List Char) (h : pyIsSpace c = true) :
    stripL (c :: s) = stripL s := by
  rw [stripL, stripL, List.dropWhile_cons, if_pos h]

end StringLemmas

theorem processSentence_spec (v : List Char)
    (h1 : hasImageTok v = true)
    (h2 : hasImageTok (removeImageTok v) = false) :
    processSentence v = stripL (removeImageTok v) ∧
    hasImageTok (processSentence v) = false ∧
    noLeadSpace (processSentence v) = true ∧
    noTrailSpace (processSentence v) = true := by
  have hv1 : hasImageTok (stripL (removeImageTok v)) = false := by
    cases h : hasImageTok (stripL (removeImageTok v)) with
    | false => rfl
    | true => rw [hasImageTok_of_stripL _ h] at h2; cases h2
  have hlead : noLeadSpace (stripL (removeImageTok v)) = true := noLeadSpace_stripL _
  have htrail : noTrailSpace (stripL (removeImageTok v)) = true := noTrailSpace_stripL _
  have hmain : processSentence v = stripL (removeImageTok v) := by
    rw [processSentence, if_pos h1]
    show stripL (removeImageTok (stripL
      (DEFAULT_IMAGE_TOKEN ++ '\n' :: stripL (removeImageTok v)))) =
      stripL (removeImageTok v)
    cases hv : stripL (removeImageTok v) with
    | nil =>
      have hs1 : stripL (DEFAULT_IMAGE_TOKEN ++ '\n' :: ([] : List Char)) =
          DEFAULT_IMAGE_TOKEN := by rfl
      rw [hs1]
      have hs2 : DEFAULT_IMAGE_TOKEN = DEFAULT_IMAGE_TOKEN ++ [] := by simp
      rw [hs2, removeImageTok_tok_append, removeImageTok_nil]
      rfl
    | cons c cs =>
      rw [hv] at hv1 hlead htrail
      have hstep1 : stripL (DEFAULT_IMAGE_TOKEN ++ '\n' :: c :: cs) =
          DEFAULT_IMAGE_TOKEN ++ '\n' :: c :: cs := by
        apply stripL_eq_self
        · rfl
        · rw [noTrailSpace_append_right _ _ (by simp), noTrailSpace_cons_cons]
          exact htrail
      rw [hstep1, removeImageTok_tok_append]
      have hnostart : startsWith DEFAULT_IMAGE_TOKEN ('\n' :: c :: cs) = false := rfl
      rw [removeImageTok_cons_of_not_starts _ _ hnostart]
      rw [removeImageTok_of_not_has (c :: cs) hv1]
      rw [stripL_cons_space _ _ (by rfl)]
      exact stripL_eq_self _ hlead htrail
  refine ⟨hmain, ?_, ?_, ?_⟩
  · rw [hmain]; exact hv1
  · rw [hmain]; exact hlead
  · rw [hmain]; exact htrail

theorem mapE_maskTarget_ok (tk : Tokenizer)
    (l : List (List Int × List Sentence)) (labels : List (List Int))
    (h : mapE (fun p => maskTarget tk p.1 p.2) l = .ok labels) :
    labels = l.map (fun p => p.1) := by
  induction l generalizing labels with
  | nil =>
    simp only [mapE] at h
    cases h
    rfl
  | cons p t ih =>
    simp only [mapE] at h
    cases hmk : maskTarget tk p.1 p.2 with
    | error e => rw [hmk] at h; cases h
    | ok b =>
      rw [hmk] at h
      cases hm : mapE (fun p => maskTarget tk p.1 p.2) t with
      | error e => rw [hm] at h; cases h
      | ok bs =>
        rw [hm] at h
        cases h
        have hb : b = p.1 := by
          unfold maskTarget at hmk
          by_cases h0 : 0 < (tk.tok (firstValue p.2)).length
          · rw [if_pos h0] at hmk; cases hmk
          · rw [if_neg h0] at hmk; cases hmk; rfl
        rw [List.map_cons, hb, ih bs hm]

theorem preprocess_plain_ok_inv (sep : List Char) (tk : Tokenizer)
    (sources : List (List Sentence)) (out : PPOut)
    (h : preprocess_plain sep tk sources = .ok out) :
    ∃ pairs, mapE (sourceStep sep) sources = .ok pairs ∧
      out.input_ids = pairs.map (fun p => tk.tok p.2 ++ [tk.eos_token_id]) ∧
      out.labels = out.input_ids.map (fun ids => ids.map (fun n => Int.ofNat n)) := by
  unfold preprocess_plain at h
  split at h
  · cases h
  · rename_i pairs hp
    refine ⟨pairs, hp, ?_⟩
    simp only [] at h
    split at h
    · cases h
    · rename_i labels hm
      have hlab : labels =
          ((pairs.map (fun p => p.2)).map
            (fun c => tk.tok c ++ [tk.eos_token_id])).map
              (fun ids => ids.map (fun n => Int.ofNat n)) := by
        rw [mapE_maskTarget_ok tk _ labels hm]
        apply List.map_fst_zip
        simp
      split at h
      · split at h
        · cases h
          refine ⟨by simp [List.map_map, Function.comp], ?_⟩
          simp only [hlab, List.map_map]
        · cases h
      · cases h

/-- Claim C3: for every two-turn conversation accepted by
`preprocess_plain`, the example's `labels` and `input_ids` have equal
length (the labels start as an exact copy of the token ids), and the final
token of `input_ids` is the tokenizer's `eos_token_id`, appended after
tokenizing the concatenation. -/
theorem preprocess_plain_label_length_eos (sep : List Char) (tk : Tokenizer)
    (sources : List (List Sentence)) (out : PPOut)
    (h : preprocess_plain sep tk sources = .ok out) :
    out.labels.length = out.input_ids.length ∧
    ∀ k, k < out.input_ids.length →
      (out.labels.getD k []).length = (out.input_ids.getD k []).length ∧
      (out.input_ids.getD k []).getLast? = some tk.eos_token_id := by
  obtain ⟨pairs, _, hin, hlab⟩ := preprocess_plain_ok_inv sep tk sources out h
  constructor
  · rw [hlab, List.length_map]
  · intro k hk
    constructor
    · rw [hlab, getD_map_lt _ hk [] []]
      simp
    · have hk' : k < pairs.length := by
        rw [hin, List.length_map] at hk
        exact hk
      rw [hin, getD_map_lt _ (by simpa using hk') [] default]
      exact List.getLast?_concat _

theorem preprocess_plain_label_length_eos_witness :
    wOut.labels.length = wOut.input_ids.length ∧
    ∀ k, k < wOut.input_ids.length →
      (wOut.labels.getD k []).length = (wOut.input_ids.getD k []).length ∧
      (wOut.input_ids.getD k []).getLast? = some wTok.eos_token_id :=
  preprocess_plain_label_length_eos ['\n'] wTok [wConv] wOut (by rfl)

/-- Claim C2 is false as stated: for a contract-satisfying tokenizer whose
encoding of the empty string is non-empty, the masked prefix length of a
blanked two-turn conversation is 1, not 0, and `preprocess_plain` raises a
`TypeError` (from assigning the integer sentinel to a list slice) instead
of returning unmasked labels. -/
theorem masked_prefix_claim_refuted :
    maskedPrefixLen cTok cConv ≠ 0 ∧
    preprocess_plain ['\n'] cTok [cConv] = .error "TypeError" := by
  constructor
  · decide
  · rfl

/-- Claim C2 (amended): for every tokenizer that encodes the empty string
as the empty id sequence, the masked prefix length of every source is 0,
and no entry of the labels returned by `preprocess_plain` equals the
ignore sentinel IGNORE_INDEX. (For other contract tokenizers the masking
assignment raises a `TypeError` instead of returning.) -/
theorem preprocess_plain_no_ignore_label (sep : List Char) (tk : Tokenizer)
    (sources : List (List Sentence)) (out : PPOut)
    (hemp : tk.tok [] = [])
    (h : preprocess_plain sep tk sources = .ok out) :
    (∀ source ∈ sources, maskedPrefixLen tk source = 0) ∧
    ∀ lab ∈ out.labels, ∀ x ∈ lab, x ≠ IGNORE_INDEX := by
  constructor
  · intro source _
    cases source with
    | nil => simp [maskedPrefixLen, blankFirst, firstValue, hemp]
    | cons s rest => simp [maskedPrefixLen, blankFirst, firstValue, hemp]
  · obtain ⟨pairs, _, _, hlab⟩ := preprocess_plain_ok_inv sep tk sources out h
    intro lab hmem x hx
    rw [hlab] at hmem
    obtain ⟨ids, -, rfl⟩ := List.mem_map.mp hmem
    obtain ⟨n, -, rfl⟩ := List.mem_map.mp hx
    intro hc
    simp only [IGNORE_INDEX, Int.ofNat_eq_natCast] at hc
    omega

theorem preprocess_plain_no_ignore_label_witness :
    (∀ source ∈ [wConv], maskedPrefixLen wTok source = 0) ∧
    ∀ lab ∈ wOut.labels, ∀ x ∈ lab, x ≠ IGNORE_INDEX :=
  preprocess_plain_no_ignore_label ['\n'] wTok [wConv] wOut (by rfl) (by rfl)

theorem mapE_sourceStep_error (sep : List Char) (sources : List (List Sentence))
    (e : String) (h : mapE (sourceStep sep) sources = .error e) :
    e = "AssertionError" ∧ ∃ conv ∈ sources, conv.length ≠ 2 := by
  induction sources with
  | nil => simp only [mapE] at h; cases h
  | cons conv t ih =>
    simp only [mapE] at h
    cases hs : sourceStep sep conv with
    | error e' =>
      rw [hs] at h
      cases h
      unfold sourceStep at hs
      by_cases h2 : conv.length = 2
      · rw [if_pos h2] at hs; cases hs
      · rw [if_neg h2] at hs
        cases hs
        exact ⟨rfl, conv, List.mem_cons_self conv t, h2⟩
    | ok pair =>
      rw [hs] at h
      cases hm : mapE (sourceStep sep) t with
      | error e' =>
        rw [hm] at h
        cases h
        obtain ⟨he, c, hc, hne⟩ := ih hm
        exact ⟨he, c, List.mem_cons_of_mem conv hc, hne⟩
      | ok pairs => rw [hm] at h; cases h

theorem mapE_maskTarget_error (tk : Tokenizer)
    (l : List (List Int × List Sentence)) (e : String)
    (h : mapE (fun p => maskTarget tk p.1 p.2) l = .error e) : e = "TypeError" := by
  induction l with
  | nil => simp only [mapE] at h; cases h
  | cons p t ih =>
    simp only [mapE] at h
    cases hmk : maskTarget tk p.1 p.2 with
    | error e' =>
      rw [hmk] at h
      cases h
      unfold maskTarget at hmk
      by_cases h0 : 0 < (tk.tok (firstValue p.2)).length
      · rw [if_pos h0] at hmk; cases hmk; rfl
      · rw [if_neg h0] at hmk; cases hmk
    | ok b =>
      rw [hmk] at h
      cases hm : mapE (fun p => maskTarget tk p.1 p.2) t with
      | error e' => rw [hm] at h; cases h; exact ih hm
      | ok bs => rw [hm] at h; cases h

theorem preprocess_plain_not_assert (sep : List Char) (tk : Tokenizer)
    (sources : List (List Sentence))
    (hall : ∀ conv ∈ sources, conv.length = 2) :
    preprocess_plain sep tk sources ≠ .error "AssertionError" := by
  intro hcontra
  unfold preprocess_plain at hcontra
  split at hcontra
  · rename_i e hp
    cases hcontra
    obtain ⟨-, c, hc, hne⟩ := mapE_sourceStep_error sep sources _ hp
    exact hne (hall c hc)
  · rename_i pairs hp
    simp only [] at hcontra
    split at hcontra
    · rename_i e hm
      injection hcontra with he
      rw [he] at hm
      have := mapE_maskTarget_error tk _ _ hm
      exact absurd this (by decide)
    · split at hcontra
      · split at hcontra
        · cases hcontra
        · injection hcontra with he
          exact absurd he (by decide)
      · injection hcontra with he
        exact absurd he (by decide)

/-- Claim C7: `preprocess_plain` raises an `AssertionError` for every
conversation whose turn list does not have length exactly 2, and for a
two-turn conversation the assertion passes and no `AssertionError` is
raised. -/
theorem preprocess_plain_two_turn_assertion (sep : List Char) (tk : Tokenizer)
    (conv : List Sentence) :
    (conv.length ≠ 2 → preprocess_plain sep tk [conv] = .error "AssertionError") ∧
    (conv.length = 2 → preprocess_plain sep tk [conv] ≠ .error "AssertionError") := by
  constructor
  · intro h
    simp only [preprocess_plain, mapE, sourceStep, if_neg h]
  · intro h
    apply preprocess_plain_not_assert
    intro c hc
    rw [List.mem_singleton.mp hc]
    exact h

theorem preprocess_plain_two_turn_assertion_witness :
    (([⟨['a']⟩] : List Sentence).length ≠ 2 ∧
      preprocess_plain ['\n'] wTok [[⟨['a']⟩]] = .error "AssertionError") ∧
    (wConv.length = 2 ∧
      preprocess_plain ['\n'] wTok [wConv] ≠ .error "AssertionError") :=
  ⟨⟨by decide, (preprocess_plain_two_turn_assertion ['\n'] wTok [⟨['a']⟩]).1 (by decide)⟩,
   ⟨by decide, (preprocess_plain_two_turn_assertion ['\n'] wTok wConv).2 (by decide)⟩⟩

/-- Claim C4: dataset construction retains exactly the input records that
contain an `image` key: the dataset length equals the count of such
records, and every retained record has one. -/
theorem dataset_filters_imageless_records (data : List RawRecord) :
    (buildListDataDict data).length =
      data.countP (fun item => item.image.isSome) ∧
    ∀ r ∈ buildListDataDict data, r.image.isSome = true := by
  constructor
  · rw [buildListDataDict, List.countP_eq_length_filter]
  · intro r hr
    exact (List.mem_filter.mp hr).2

theorem dataset_filters_imageless_records_witness :
    (buildListDataDict wData).length =
      wData.countP (fun item => item.image.isSome) ∧
    ∀ r ∈ buildListDataDict wData, r.image.isSome = true :=
  dataset_filters_imageless_records wData

theorem preprocess_multimodal_value (sources : List (List Sentence)) (i j : Nat) :
    (((preprocess_multimodal sources).getD i []).getD j ⟨[]⟩).value =
      processSentence (((sources.getD i []).getD j ⟨[]⟩).value) := by
  have hempty : processSentence ([] : List Char) = [] := by
    rw [processSentence, if_neg (by decide)]
  by_cases hi : i < sources.length
  · rw [preprocess_multimodal, getD_map_lt _ hi [] []]
    by_cases hj : j < (sources.getD i []).length
    · rw [preprocess_multimodal_conv,
        getD_map_lt (fun s : Sentence => (⟨processSentence s.value⟩ : Sentence))
          hj ⟨[]⟩ ⟨[]⟩]
    · push_neg at hj
      have h1 : (List.map (fun s : Sentence => (⟨processSentence s.value⟩ : Sentence))
          (sources.getD i [])).getD j ⟨[]⟩ = ⟨[]⟩ :=
        getD_of_le_length (by simpa using hj) (⟨[]⟩ : Sentence)
      have h2 : (sources.getD i []).getD j ⟨[]⟩ = ⟨[]⟩ :=
        getD_of_le_length hj (⟨[]⟩ : Sentence)
      rw [preprocess_multimodal_conv, h1, h2]
      exact hempty.symm
  · push_neg at hi
    have h1 : (preprocess_multimodal sources).getD i [] = [] :=
      getD_of_le_length (by simpa [preprocess_multimodal] using hi) []
    have h2 : sources.getD i [] = [] := getD_of_le_length hi []
    rw [h1, h2]
    exact hempty.symm

/-- Claim C6 is false as stated: on the sentence value
"<im<im<image>age>age>", which contains the image marker, the value
produced by `preprocess_multimodal` is exactly "<image>" — it still
contains the marker, because Python's single-pass `str.replace` does not
rescan its output and the removals splice new occurrences together. -/
theorem image_token_removal_refuted :
    hasImageTok ((((preprocess_multimodal [[⟨nastyValue⟩]]).getD 0 []).getD 0
      ⟨[]⟩).value) = true ∧
    (((preprocess_multimodal [[⟨nastyValue⟩]]).getD 0 []).getD 0 ⟨[]⟩).value =
      DEFAULT_IMAGE_TOKEN := by
  constructor
  · decide
  · decide

/-- Claim C6 (amended): sentences whose value does not contain the image
marker are left unchanged by `preprocess_multimodal`; and for a sentence
value that contains the marker, provided a single removal pass leaves no
marker occurrence (true of all non-nested values), the net effect is
deletion: the result is the stripped marker-free removal, contains no
marker occurrence, and has no leading or trailing whitespace. -/
theorem preprocess_multimodal_net_effect (sources : List (List Sentence)) (i j : Nat) :
    (hasImageTok (((sources.getD i []).getD j ⟨[]⟩).value) = false →
      (((preprocess_multimodal sources).getD i []).getD j ⟨[]⟩).value =
        ((sources.getD i []).getD j ⟨[]⟩).value) ∧
    (hasImageTok (((sources.getD i []).getD j ⟨[]⟩).value) = true →
      hasImageTok (removeImageTok (((sources.getD i []).getD j ⟨[]⟩).value)) = false →
      ((((preprocess_multimodal sources).getD i []).getD j ⟨[]⟩).value =
          stripL (removeImageTok (((sources.getD i []).getD j ⟨[]⟩).value)) ∧
        hasImageTok ((((preprocess_multimodal sources).getD i []).getD j ⟨[]⟩).value)
          = false ∧
        noLeadSpace ((((preprocess_multimodal sources).getD i []).getD j ⟨[]⟩).value)
          = true ∧
        noTrailSpace ((((preprocess_multimodal sources).getD i []).getD j ⟨[]⟩).value)
          = true)) := by
  rw [preprocess_multimodal_value sources i j]
  constructor
  · intro h
    rw [processSentence, if_neg (by rw [h]; exact Bool.false_ne_true)]
  · intro h1 h2
    exact processSentence_spec _ h1 h2

theorem preprocess_multimodal_net_effect_witness :
    hasImageTok dValue = true ∧
    hasImageTok (removeImageTok dValue) = false ∧
    (((preprocess_multimodal [[⟨dValue⟩]]).getD 0 []).getD 0 ⟨[]⟩).value =
      stripL (removeImageTok dValue) :=
  ⟨by decide, by decide,
    ((preprocess_multimodal_net_effect [[⟨dValue⟩]] 0 0).2 (by decide) (by decide)).1⟩

section CollateLemmas

theorem maxLen_mem (vs : List (List Int)) (v : List Int) (hv : v ∈ vs) :
    v.length ≤ maxLen vs := by
  induction vs with
  | nil => cases hv
  | cons w t ih =>
    rcases List.mem_cons.mp hv with rfl | hv'
    · exact Nat.le_max_left _ _
    · exact le_trans (ih hv') (Nat.le_max_right _ _)

theorem maxLen_eq_of_lengths (vs ws : List (List Int))
    (h : vs.map List.length = ws.map List.length) : maxLen vs = maxLen ws := by
  induction vs generalizing ws with
  | nil =>
    cases ws with
    | nil => rfl
    | cons w t => simp at h
  | cons v t ih =>
    cases ws with
    | nil => simp at h
    | cons w u =>
      simp only [List.map_cons, List.cons.injEq] at h
      show max v.length (maxLen t) = max w.length (maxLen u)
      rw [h.1, ih u h.2]

theorem padTo_length (L : Nat) (p : Int) (v : List Int) (h : v.length ≤ L) :
    (padTo L p v).length = L := by
  simp only [padTo, List.length_append, List.length_replicate]
  omega

theorem rowLen_pad_sequence (vs : List (List Int)) (p : Int) (hne : vs ≠ []) :
    rowLen (pad_sequence vs p) = maxLen vs := by
  cases vs with
  | nil => exact absurd rfl hne
  | cons v t =>
    show (padTo (maxLen (v :: t)) p v).length = maxLen (v :: t)
    exact padTo_length _ _ _ (maxLen_mem _ _ (List.mem_cons_self v t))

theorem collate_fn_eq (instances : List Instance) (tk : Tokenizer) (T : Nat)
    (hne : instances ≠ [])
    (hlen : ∀ inst ∈ instances, inst.labels.length = inst.input_ids.length) :
    collate_fn instances tk T = .ok (finishBatch tk T instances
      (instances.map (fun inst =>
        padTo (maxRawLen instances) (Int.ofNat tk.pad_token_id) inst.input_ids ++
          List.replicate (T - maxRawLen instances) (Int.ofNat tk.pad_token_id)))
      (instances.map (fun inst =>
        padTo (maxRawLen instances) IGNORE_INDEX inst.labels ++
          List.replicate (T - maxRawLen instances) IGNORE_INDEX))) := by
  have hisEmpty : instances.isEmpty = false := by
    cases instances with
    | nil => exact absurd rfl hne
    | cons a t => rfl
  have hlengths : (instances.map (fun inst => inst.labels)).map List.length =
      (instances.map (fun inst => inst.input_ids)).map List.length := by
    rw [List.map_map, List.map_map]
    exact List.map_congr_left hlen
  have hMlab : maxLen (instances.map (fun inst => inst.labels)) = maxRawLen instances :=
    maxLen_eq_of_lengths _ _ hlengths
  have hrl_in : rowLen (pad_sequence (instances.map (fun inst => inst.input_ids))
      (Int.ofNat tk.pad_token_id)) = maxRawLen instances :=
    rowLen_pad_sequence _ _ (by simpa using hne)
  have hrl_lab : rowLen (pad_sequence (instances.map (fun inst => inst.labels))
      IGNORE_INDEX) = maxRawLen instances := by
    rw [rowLen_pad_sequence _ _ (by simpa using hne), hMlab]
  unfold collate_fn
  rw [if_neg (by simp [hisEmpty])]
  simp only []
  rw [hrl_in, hrl_lab]
  by_cases hMT : maxRawLen instances < T
  · rw [if_pos hMT, if_neg (by omega)]
    have hIN : (pad_sequence (instances.map (fun inst => inst.input_ids))
        (Int.ofNat tk.pad_token_id)).map (fun row =>
          row ++ List.replicate (T - maxRawLen instances) (Int.ofNat tk.pad_token_id)) =
        instances.map (fun inst =>
          padTo (maxRawLen instances) (Int.ofNat tk.pad_token_id) inst.input_ids ++
            List.replicate (T - maxRawLen instances) (Int.ofNat tk.pad_token_id)) := by
      unfold pad_sequence
      rw [List.map_map, List.map_map]
      rfl
    have hLAB : (pad_sequence (instances.map (fun inst => inst.labels))
        IGNORE_INDEX).map (fun row =>
          row ++ List.replicate (T - maxRawLen instances) IGNORE_INDEX) =
        instances.map (fun inst =>
          padTo (maxRawLen instances) IGNORE_INDEX inst.labels ++
            List.replicate (T - maxRawLen instances) IGNORE_INDEX) := by
      unfold pad_sequence
      rw [hMlab, List.map_map, List.map_map]
      rfl
    rw [hIN, hLAB]
  · rw [if_neg hMT]
    have hTM : T - maxRawLen instances = 0 := by omega
    have hIN : pad_sequence (instances.map (fun inst => inst.input_ids))
        (Int.ofNat tk.pad_token_id) =
        instances.map (fun inst =>
          padTo (maxRawLen instances) (Int.ofNat tk.pad_token_id) inst.input_ids ++
            List.replicate (T - maxRawLen instances) (Int.ofNat tk.pad_token_id)) := by
      rw [hTM]
      simp only [List.replicate_zero, List.append_nil]
      unfold pad_sequence
      rw [List.map_map]
      rfl
    have hLAB : pad_sequence (instances.map (fun inst => inst.labels))
        IGNORE_INDEX =
        instances.map (fun inst =>
          padTo (maxRawLen instances) IGNORE_INDEX inst.labels ++
            List.replicate (T - maxRawLen instances) IGNORE_INDEX) := by
      rw [hTM]
      simp only [List.replicate_zero, List.append_nil]
      unfold pad_sequence
      rw [hMlab, List.map_map]
      rfl
    rw [hIN, hLAB]

end CollateLemmas

/-- Claim C1 is false as stated: for a single instance of raw length
M = 3, target length T = 2 and model_max_length = 10, the collated
`input_ids` and `labels` have final sequence length 2, whereas
`min(max(M, T), model_max_length)` is 3. -/
theorem collate_length_claim_refuted :
    Except.map (fun b => rowLen b.input_ids)
      (collate_fn cInstances cTokC 2) = .ok 2 ∧
    Except.map (fun b => rowLen b.labels)
      (collate_fn cInstances cTokC 2) = .ok 2 ∧
    min (max (maxRawLen cInstances) 2) cTokC.model_max_length = 3 ∧
    (2 : Nat) ≠ 3 := by
  refine ⟨rfl, rfl, rfl, by decide⟩

/-- Claim C1 (amended): for every non-empty batch whose labels match their
input ids in length (as the preprocessing guarantees), `collate_fn`
returns a batch whose `input_ids` and `labels` rows all have final length
`min(max_length, tokenizer.model_max_length)` — independent of the batch's
maximum raw length. -/
theorem collate_final_length (instances : List Instance) (tk : Tokenizer) (T : Nat)
    (hne : instances ≠ [])
    (hlen : ∀ inst ∈ instances, inst.labels.length = inst.input_ids.length) :
    ∃ b, collate_fn instances tk T = .ok b ∧
      (∀ row ∈ b.input_ids, row.length = min T tk.model_max_length) ∧
      (∀ row ∈ b.labels, row.length = min T tk.model_max_length) := by
  refine ⟨_, collate_fn_eq instances tk T hne hlen, ?_, ?_⟩
  · intro row hrow
    simp only [finishBatch] at hrow
    obtain ⟨r1, hr1, rfl⟩ := List.mem_map.mp hrow
    obtain ⟨inst, hinst, rfl⟩ := List.mem_map.mp hr1
    have hvM : inst.input_ids.length ≤ maxRawLen instances :=
      maxLen_mem _ _ (List.mem_map_of_mem _ hinst)
    rw [List.length_take, List.length_append, padTo_length _ _ _ hvM,
      List.length_replicate]
    omega
  · intro row hrow
    simp only [finishBatch] at hrow
    obtain ⟨r1, hr1, rfl⟩ := List.mem_map.mp hrow
    obtain ⟨inst, hinst, rfl⟩ := List.mem_map.mp hr1
    have hvM : inst.labels.length ≤ maxRawLen instances := by
      rw [hlen inst hinst]
      exact maxLen_mem _ _ (List.mem_map_of_mem _ hinst)
    rw [List.length_take, List.length_append, padTo_length _ _ _ hvM,
      List.length_replicate]
    omega

theorem collate_final_length_witness :
    ∃ b, collate_fn wInstances wTokC 4 = .ok b ∧
      (∀ row ∈ b.input_ids, row.length = min 4 wTokC.model_max_length) ∧
      (∀ row ∈ b.labels, row.length = min 4 wTokC.model_max_length) :=
  collate_final_length wInstances wTokC 4 (by decide) (by decide)

/-- Claim C10: for every non-empty batch with per-instance equal-length
`input_ids` and `labels`, the collated `input_ids` and `labels` have
identical shape — one row per instance, all rows of one length — with
`input_ids` padded by `tokenizer.pad_token_id` and `labels` padded by
IGNORE_INDEX at every position at or beyond the instance's raw length. -/
theorem collate_pad_shapes_and_values (instances : List Instance) (tk : Tokenizer)
    (T : Nat) (i j : Nat)
    (hne : instances ≠ [])
    (hlen : ∀ inst ∈ instances, inst.labels.length = inst.input_ids.length)
    (hi : i < instances.length)
    (hj1 : (instances.getD i default).input_ids.length ≤ j)
    (hj2 : j < min T tk.model_max_length) :
    ∃ b, collate_fn instances tk T = .ok b ∧
      b.input_ids.length = instances.length ∧
      b.labels.length = instances.length ∧
      (∀ row ∈ b.input_ids, row.length = min T tk.model_max_length) ∧
      (∀ row ∈ b.labels, row.length = min T tk.model_max_length) ∧
      (b.input_ids.getD i []).getD j 0 = Int.ofNat tk.pad_token_id ∧
      (b.labels.getD i []).getD j 0 = IGNORE_INDEX := by
  have hinstmem : instances.getD i default ∈ instances := getD_mem_of_lt hi default
  have hvM : (instances.getD i default).input_ids.length ≤ maxRawLen instances :=
    maxLen_mem _ _ (List.mem_map_of_mem _ hinstmem)
  have hvMlab : (instances.getD i default).labels.length ≤ maxRawLen instances := by
    rw [hlen _ hinstmem]
    exact hvM
  refine ⟨_, collate_fn_eq instances tk T hne hlen, ?_, ?_, ?_, ?_, ?_, ?_⟩
  · simp [finishBatch]
  · simp [finishBatch]
  · intro row hrow
    simp only [finishBatch] at hrow
    obtain ⟨r1, hr1, rfl⟩ := List.mem_map.mp hrow
    obtain ⟨inst, hinst, rfl⟩ := List.mem_map.mp hr1
    have hv : inst.input_ids.length ≤ maxRawLen instances :=
      maxLen_mem _ _ (List.mem_map_of_mem _ hinst)
    rw [List.length_take, List.length_append, padTo_length _ _ _ hv,
      List.length_replicate]
    omega
  · intro row hrow
    simp only [finishBatch] at hrow
    obtain ⟨r1, hr1, rfl⟩ := List.mem_map.mp hrow
    obtain ⟨inst, hinst, rfl⟩ := List.mem_map.mp hr1
    have hv : inst.labels.length ≤ maxRawLen instances := by
      rw [hlen inst hinst]
      exact maxLen_mem _ _ (List.mem_map_of_mem _ hinst)
    rw [List.length_take, List.length_append, padTo_length _ _ _ hv,
      List.length_replicate]
    omega
  · simp only [finishBatch]
    rw [getD_map_lt _ (by simpa using hi) [] [],
      getD_map_lt _ hi [] default, getD_take_lt hj2 0, padTo,
      List.append_assoc, ← List.replicate_add, getD_append_ge _ hj1 0,
      getD_replicate_lt (by omega)]
  · simp only [finishBatch]
    have hj1' : (instances.getD i default).labels.length ≤ j := by
      rw [hlen _ hinstmem]
      exact hj1
    rw [getD_map_lt _ (by simpa using hi) [] [],
      getD_map_lt _ hi [] default, getD_take_lt hj2 0, padTo,
      List.append_assoc, ← List.replicate_add, getD_append_ge _ hj1' 0,
      getD_replicate_lt (by omega)]

theorem collate_pad_shapes_and_values_witness :
    ∃ b, collate_fn wInstances wTokC 4 = .ok b ∧
      b.input_ids.length = wInstances.length ∧
      b.labels.length = wInstances.length ∧
      (∀ row ∈ b.input_ids, row.length = min 4 wTokC.model_max_length) ∧
      (∀ row ∈ b.labels, row.length = min 4 wTokC.model_max_length) ∧
      (b.input_ids.getD 0 []).getD 3 0 = Int.ofNat wTokC.pad_token_id ∧
      (b.labels.getD 0 []).getD 3 0 = IGNORE_INDEX :=
  collate_pad_shapes_and_values wInstances wTokC 4 0 3 (by decide) (by decide)
    (by decide) (by decide) (by decide)

theorem collate_ok_images (instances : List Instance) (tk : Tokenizer) (T : Nat)
    (b : Batch) (h : collate_fn instances tk T = .ok b) :
    b.images = imagesPart instances ∧ instances ≠ [] := by
  unfold collate_fn at h
  split at h
  · cases h
  · rename_i hemp
    have hne : instances ≠ [] := by
      intro hcontra
      rw [hcontra] at hemp
      exact hemp rfl
    simp only [] at h
    refine ⟨?_, hne⟩
    split at h
    · split at h
      · cases h
      · cases h
        simp [finishBatch]
    · cases h
      simp [finishBatch]

theorem stackCond_iff (l : List Instance) (t0 : Tensor)
    (h0 : (l.headD default).image = some t0) (hne : l ≠ []) :
    stackCond (l.map (fun inst => inst.image)) = true ↔
      ∀ inst ∈ l, ∃ t, inst.image = some t ∧ t.shape = t0.shape := by
  cases l with
  | nil => exact absurd rfl hne
  | cons a r =>
    rw [List.headD_cons] at h0
    simp only [stackCond, List.map_cons, List.headD_cons, h0, List.all_eq_true]
    constructor
    · intro hall inst hmem
      rcases List.mem_cons.mp hmem with rfl | hmem'
      · exact ⟨t0, h0, rfl⟩
      · have hx := hall inst.image
          (List.mem_cons_of_mem _ (List.mem_map_of_mem (fun inst => inst.image) hmem'))
        simp only [Bool.and_eq_true, beq_iff_eq] at hx
        obtain ⟨t, ht⟩ := Option.isSome_iff_exists.mp hx.1
        refine ⟨t, ht, ?_⟩
        have h2 := hx.2
        rw [ht] at h2
        simpa [shapeOfOpt] using h2
    · intro hall x hxmem
      rcases List.mem_cons.mp hxmem with rfl | hxmem'
      · simp [shapeOfOpt]
      · obtain ⟨inst, hmem, rfl⟩ := List.mem_map.mp hxmem'
        obtain ⟨t, ht, hsh⟩ := hall inst (List.mem_cons_of_mem a hmem)
        rw [ht]
        simp [shapeOfOpt, hsh]

theorem filterMap_id_all_some (l : List (Option Tensor))
    (h : ∀ x ∈ l, ∃ t, x = some t) : (l.filterMap id).length = l.length := by
  induction l with
  | nil => rfl
  | cons x r ih =>
    obtain ⟨t, rfl⟩ := h x (List.mem_cons_self x r)
    simp only [List.filterMap_cons, id, List.length_cons]
    rw [ih (fun x hx => h x (List.mem_cons_of_mem _ hx))]

/-- Claim C5: in a batch returned by `collate_fn` whose first instance
carries an image tensor `t0` of shape (C, H, W), if every instance's image
tensor is present with that same shape then the batch's `images` entry is
a single stacked tensor of shape (N, C, H, W); otherwise it is the
unstacked list of the N per-instance image entries. -/
theorem collate_image_stacking (instances : List Instance) (tk : Tokenizer)
    (T : Nat) (b : Batch) (t0 : Tensor) (c h w : Nat)
    (hok : collate_fn instances tk T = .ok b)
    (h0 : (instances.headD default).image = some t0)
    (hshape : t0.shape = [c, h, w]) :
    ((∀ inst ∈ instances, ∃ t, inst.image = some t ∧ t.shape = t0.shape) →
      ∃ tt, b.images = .stacked tt ∧ tt.shape = [instances.length, c, h, w]) ∧
    ((¬ ∀ inst ∈ instances, ∃ t, inst.image = some t ∧ t.shape = t0.shape) →
      b.images = .unstacked (instances.map (fun inst => inst.image))) := by
  obtain ⟨himg, hne⟩ := collate_ok_images instances tk T b hok
  constructor
  · intro hall
    have hsc : stackCond (instances.map (fun inst => inst.image)) = true :=
      (stackCond_iff instances t0 h0 hne).mpr hall
    refine ⟨stackTensors ((instances.map (fun inst => inst.image)).filterMap id),
      ?_, ?_⟩
    · rw [himg]
      cases instances with
      | nil => exact absurd rfl hne
      | cons a r =>
        rw [List.headD_cons] at h0
        simp only [imagesPart, List.headD_cons, h0]
        rw [if_pos hsc]
    · cases instances with
      | nil => exact absurd rfl hne
      | cons a r =>
        rw [List.headD_cons] at h0
        rw [List.map_cons, h0]
        simp only [List.filterMap_cons, id]
        have hrlen : ((r.map (fun inst => inst.image)).filterMap id).length =
            (r.map (fun inst => inst.image)).length := by
          apply filterMap_id_all_some
          intro x hx
          obtain ⟨inst, hmem, rfl⟩ := List.mem_map.mp hx
          obtain ⟨t, ht, -⟩ := hall inst (List.mem_cons_of_mem a hmem)
          exact ⟨t, ht⟩
        simp only [stackTensors, List.length_cons, List.headD_cons, hrlen,
          List.length_map, hshape]
  · intro hnall
    have hsc : stackCond (instances.map (fun inst => inst.image)) = false := by
      cases hv : stackCond (instances.map (fun inst => inst.image)) with
      | false => rfl
      | true => exact absurd ((stackCond_iff instances t0 h0 hne).mp hv) hnall
    rw [himg]
    cases instances with
    | nil => exact absurd rfl hne
    | cons a r =>
      rw [List.headD_cons] at h0
      simp only [imagesPart, List.headD_cons, h0]
      have hsc2 : stackCond (a.image :: r.map (fun inst => inst.image)) = false := by
        rw [← List.map_cons]
        exact hsc
      rw [if_neg (by simp [hsc2])]

theorem collate_image_stacking_witness :
    ((∀ inst ∈ wInstances, ∃ t, inst.image = some t ∧
        t.shape = (Tensor.mk [1, 1, 1] [9]).shape) →
      ∃ tt, (Batch.mk [[5, 6, 0, 0]] [[7, 8, -100, -100]]
          [[true, true, false, false]]
          (.stacked ⟨[1, 1, 1, 1], [9]⟩)).images = .stacked tt ∧
        tt.shape = [wInstances.length, 1, 1, 1]) ∧
    ((¬ ∀ inst ∈ wInstances, ∃ t, inst.image = some t ∧
        t.shape = (Tensor.mk [1, 1, 1] [9]).shape) →
      (Batch.mk [[5, 6, 0, 0]] [[7, 8, -100, -100]]
          [[true, true, false, false]]
          (.stacked ⟨[1, 1, 1, 1], [9]⟩)).images =
        .unstacked (wInstances.map (fun inst => inst.image))) :=
  collate_image_stacking wInstances wTokC 4 _ ⟨[1, 1, 1], [9]⟩ 1 1 1
    (by rfl) (by rfl) (by rfl)

/-- Claim C8: `expand2square` returns the input unchanged when width
equals height; otherwise it returns a square image of side
`max(width, height)`, with the original image pasted at the half-padding
offsets (content centered, no cropping: every original pixel is
preserved), every pixel outside the pasted rectangle equal to the
background color, and the two margins along each dimension differing by
at most one pixel (symmetric padding up to integer division). -/
theorem expand2square_spec (img : PImage) (bg : Color) :
    (img.width = img.height → expand2square img bg = img) ∧
    (img.width ≠ img.height →
      ((expand2square img bg).width = squareSide img ∧
       (expand2square img bg).height = squareSide img ∧
       (∀ x y, x < img.width → y < img.height →
         (expand2square img bg).pix (padOffX img + x) (padOffY img + y) =
           img.pix x y) ∧
       (∀ x y, (x < padOffX img ∨ padOffX img + img.width ≤ x ∨
                y < padOffY img ∨ padOffY img + img.height ≤ y) →
         (expand2square img bg).pix x y = bg) ∧
       (2 * padOffX img ≤ squareSide img - img.width ∧
         squareSide img - img.width ≤ 2 * padOffX img + 1) ∧
       (2 * padOffY img ≤ squareSide img - img.height ∧
         squareSide img - img.height ≤ 2 * padOffY img + 1))) := by
  constructor
  · intro hwh
    rw [expand2square, if_pos hwh]
  · intro hwh
    by_cases hlt : img.height < img.width
    · have hmax : max img.width img.height = img.width :=
        Nat.max_eq_left (Nat.le_of_lt hlt)
      have hox : padOffX img = 0 := by
        simp [padOffX, squareSide, hmax]
      have hoy : padOffY img = (img.width - img.height) / 2 := by
        simp [padOffY, squareSide, hmax]
      simp only [expand2square, if_neg hwh, if_pos hlt, paste, imageNew,
        squareSide, hmax, hox, hoy]
      refine ⟨by trivial, by trivial, ?_, ?_, ?_, ?_⟩
      · intro x y hx hy
        rw [if_pos (by omega)]
        have h1 : 0 + x - 0 = x := by omega
        have h2 : (img.width - img.height) / 2 + y - (img.width - img.height) / 2
            = y := by omega
        rw [h1, h2]
      · intro x y hcase
        rw [if_neg (by omega)]
      · omega
      · omega
    · have hgt : img.width < img.height := by
        rcases Nat.lt_trichotomy img.width img.height with h | h | h
        · exact h
        · exact absurd h hwh
        · exact absurd h hlt
      have hmax : max img.width img.height = img.height :=
        Nat.max_eq_right (Nat.le_of_lt hgt)
      have hox : padOffX img = (img.height - img.width) / 2 := by
        simp [padOffX, squareSide, hmax]
      have hoy : padOffY img = 0 := by
        simp [padOffY, squareSide, hmax]
      simp only [expand2square, if_neg hwh, if_neg hlt, paste, imageNew,
        squareSide, hmax, hox, hoy]
      refine ⟨by trivial, by trivial, ?_, ?_, ?_, ?_⟩
      · intro x y hx hy
        rw [if_pos (by omega)]
        have h1 : (img.height - img.width) / 2 + x - (img.height - img.width) / 2
            = x := by omega
        have h2 : 0 + y - 0 = y := by omega
        rw [h1, h2]
      · intro x y hcase
        rw [if_neg (by omega)]
      · omega
      · omega

theorem expand2square_spec_witness :
    ((2 : Nat) ≠ 3) ∧
    (expand2square (PImage.mk 2 3 (fun x y => (x, y, 0))) (9, 9, 9)).width = 3 ∧
    (expand2square (PImage.mk 2 3 (fun x y => (x, y, 0))) (9, 9, 9)).pix 2 0 =
      (9, 9, 9) := by
  have hspec := (expand2square_spec (PImage.mk 2 3 (fun x y => (x, y, 0)))
    (9, 9, 9)).2 (by decide)
  refine ⟨by decide, ?_, ?_⟩
  · exact hspec.1
  · exact hspec.2.2.2.1 2 0 (by decide)

theorem Heap.read_alloc_of_lt (h : Heap) (v : List Sentence) {a : Nat}
    (ha : a < h.cells.length) : ((h.alloc v).1).read a = h.read a :=
  getD_append_lt _ ha []

theorem Heap.read_write_of_ne (h : Heap) (v : List Sentence) {a b : Nat}
    (hab : b ≠ a) : (h.write b v).read a = h.read a :=
  getD_set_ne hab v []

/-- Claim C9: `__getitem__` leaves every previously allocated heap cell —
in particular every stored record's `conversations` list — unchanged: the
in-place mutations of `preprocess_multimodal` and the `preprocess_plain`
steps hit only the fresh cell allocated by `copy.deepcopy`, so repeated
fetches of an index observe identical stored conversation text. -/
theorem getitem_preserves_list_data_dict (sep : List Char) (tk : Tokenizer)
    (openImage : List Char → PImage) (resizeProc : PImage → Tensor)
    (pad2square : Bool) (background_color : Color) (h : Heap)
    (ds : List RecordRef) (i : Nat) {a : Nat} (ha : a < h.cells.length) :
    ((getitem sep tk openImage resizeProc pad2square background_color
        h ds i).1).read a = h.read a := by
  have hfresh : ∀ v : List Sentence, (h.alloc v).2 ≠ a := by
    intro v
    show h.cells.length ≠ a
    omega
  have hbase : ∀ v w : List Sentence,
      (((h.alloc v).1).write (h.alloc v).2 w).read a = h.read a := by
    intro v w
    rw [Heap.read_write_of_ne _ _ (hfresh v), Heap.read_alloc_of_lt h v ha]
  unfold getitem
  split
  · rfl
  · split
    · rfl
    · simp only []
      split
      · exact hbase _ _
      · split
        · rename_i pair heq hmask
          show ((((h.alloc _).1.write _ _).write _ _).read a) = h.read a
          rw [Heap.read_write_of_ne _ _ (hfresh _)]
          exact hbase _ _
        · rename_i pair heq labels hmask
          show ((((h.alloc _).1.write _ _).write _ _).read a) = h.read a
          rw [Heap.read_write_of_ne _ _ (hfresh _)]
          exact hbase _ _

theorem getitem_preserves_list_data_dict_witness :
    ((0 : Nat) < (Heap.mk [[⟨['h', 'i']⟩, ⟨['y', 'o']⟩]]).cells.length) ∧
    ((getitem ['\n'] wTok (fun _ => ⟨1, 1, fun _ _ => (0, 0, 0)⟩)
        (fun _ => ⟨[3, 1, 1], []⟩) true (123, 116, 103)
        (Heap.mk [[⟨['h', 'i']⟩, ⟨['y', 'o']⟩]])
        [⟨some ['f'], 0⟩] 0).1).read 0 =
      (Heap.mk [[⟨['h', 'i']⟩, ⟨['y', 'o']⟩]]).read 0 :=
  ⟨by decide,
    getitem_preserves_list_data_dict ['\n'] wTok
      (fun _ => ⟨1, 1, fun _ _ => (0, 0, 0)⟩) (fun _ => ⟨[3, 1, 1], []⟩) true
      (123, 116, 103) (Heap.mk [[⟨['h', 'i']⟩, ⟨['y', 'o']⟩]])
      [⟨some ['f'], 0⟩] 0 (by decide)⟩

end LlavaPretrainData
